import Mathlib

/-!  Verification of the backup-rotation engine of zombisave (src/zombisave.py).

     Modelling conventions:
     * Strings are Lean `String` (in this toolchain a structure around
       `List Char`); the character-level helpers below mirror the Python
       string operations used by the script.
     * Filesystem modification times are `Nat` (the script only compares
       them; wall-clock mtimes are positive, which some theorems assume).
     * A directory listing is a Lean list in the stable, deterministic order
       `os.listdir` reports it.
     * A raised-and-caught exception is an explicit result constructor; an
       exception that no handler catches is a `crash`-style outcome.
-/

/-- Helper for the Python substring test: `charsStart needle hay` is true when
    `needle` is a leading run of `hay`. -/
def charsStart : List Char → List Char → Bool
  | [], _ => true
  | _ :: _, [] => false
  | a :: as, b :: bs => a == b && charsStart as bs

/-- Python substring containment (the `in` operator on strings): `needle`
    occurs contiguously somewhere inside `hay`. -/
def charsContain (needle : List Char) : List Char → Bool
  | [] => charsStart needle []
  | b :: bs => charsStart needle (b :: bs) || charsContain needle bs

/-- The test `needle in hay` from the source (lines 133 and 155). -/
def strIn (needle hay : String) : Bool := charsContain needle.data hay.data

/-- Tail of `str.rpartition(sep)`: the run of characters after the last
    occurrence of `sep`, or the whole string when `sep` does not occur
    (Python returns the full string as the third component then). -/
def afterLastSep (sep : Char) (s : List Char) : List Char :=
  (s.reverse.takeWhile (fun c => !(c == sep))).reverse

/-- Python `str.removeprefix`. -/
def removePre (pre s : List Char) : List Char :=
  if charsStart pre s then s.drop pre.length else s

/-- Python `str.removesuffix`. -/
def removeSuf (suf s : List Char) : List Char :=
  if charsStart suf.reverse s.reverse then s.take (s.length - suf.length) else s

/-- Decimal digit character, as produced by Python string formatting. -/
def digitChar : Nat → Char
  | 0 => '0' | 1 => '1' | 2 => '2' | 3 => '3' | 4 => '4'
  | 5 => '5' | 6 => '6' | 7 => '7' | 8 => '8' | _ => '9'

/-- Fuel-driven decimal rendering (most significant digit first).  A fuel of
    `n + 1` always suffices for rendering `n`, see `natDigits`. -/
def natDigitsAux : Nat → Nat → List Char
  | 0, _ => []
  | fuel + 1, n =>
    if n < 10 then [digitChar n] else natDigitsAux fuel (n / 10) ++ [digitChar (n % 10)]

/-- Decimal rendering of a natural number, as Python's `str`/f-string does. -/
def natDigits (n : Nat) : List Char := natDigitsAux (n + 1) n

/-- Decimal rendering as a `String`. -/
def natStr (n : Nat) : String := String.mk (natDigits n)

/-- Numeric value of a digit string (left inverse of `natDigits`). -/
def valDigits (s : List Char) : Nat := s.foldl (fun a c => a * 10 + (c.toNat - 48)) 0

/-- Python `int(...)` restricted to the plain digit strings the naming scheme
    produces: `none` models the `ValueError` the script never catches. -/
def parseNat (s : List Char) : Option Nat :=
  if s ≠ [] ∧ s.all (fun c => c.isDigit) then some (valDigits s) else none

/-- Backup file name separator from addon (source line 124, `'_'`). -/
def SUFFIX_SEPARATOR : Char := '_'

/-- Backup file name addon prefix (source line 125, `"bak"`). -/
def SUFFIX_BEGIN : String := "bak"

/-- Initial backup file name addon extension (source line 126, `".zip"`). -/
def ZIP_EXT : String := ".zip"

/-! ## SaveLocator (source lines 77-111) -/

/-- One immediate child of a playstyle directory: its name and the
    modification time `os.path.getmtime` reports for it. -/
structure DirChild where
  name : String
  mtime : Nat
deriving DecidableEq, Repr

/-- A playstyle directory: its name paired with its listing; `none` models a
    `PermissionError` raised by `os.listdir` on that playstyle (source
    line 95, where no handler exists). -/
abbrev Playstyle := String × Option (List DirChild)

/-- Outcome of the save-selection phase.  `accessDenied` is the caught
    `PermissionError` on the root listing (lines 80-82), `noSaves` the two
    "No saves found" exits (lines 85-87 and 107-109), `crashed` an exception
    that escapes the script, and `found` the selected
    (playstyle, save, mtime) triple. -/
inductive LocateResult
  | accessDenied
  | noSaves
  | crashed
  | found (playstyle save : String) (mtime : Nat)
deriving DecidableEq, Repr

/-- Inner loop of the selection (lines 95-104): scan the children of one
    playstyle, skipping the entry named exactly `folderName` and keeping the
    strictly latest (first-encountered wins on ties). -/
def scanChildren (folderName pname : String) (acc : String × String × Nat) :
    List DirChild → String × String × Nat
  | [] => acc
  | c :: cs =>
    if c.name = folderName then scanChildren folderName pname acc cs
    else if acc.2.2 < c.mtime then scanChildren folderName pname (pname, c.name, c.mtime) cs
    else scanChildren folderName pname acc cs

/-- Outer loop of the selection (line 94): visit every playstyle in order; a
    playstyle whose listing raised `PermissionError` crashes the script
    (`none`) because line 95 sits in no `try`. -/
def scanPlaystyles (folderName : String) (acc : String × String × Nat) :
    List Playstyle → Option (String × String × Nat)
  | [] => some acc
  | (_, none) :: _ => none
  | (pn, some cs) :: rest => scanPlaystyles folderName (scanChildren folderName pn acc cs) rest

/-- The whole save-location phase (lines 77-111).  `root = none` models a
    `PermissionError` listing the save root (caught, lines 78-82).  The
    accumulator starts at `(playstyles[0], "", 0)` exactly as lines 90-92 do,
    and line 107's `latest_save == ""` check decides `noSaves`. -/
def locateSave (folderName : String) (root : Option (List Playstyle)) : LocateResult :=
  match root with
  | none => .accessDenied
  | some [] => .noSaves
  | some (p :: ps) =>
    match scanPlaystyles folderName (p.1, "", 0) (p :: ps) with
    | none => .crashed
    | some (lp, ls, lm) => if ls = "" then .noSaves else .found lp ls lm

/-- The eligible (playstyle, save, mtime) triples, flattened in visit order
    (used to state what the nested scan computes). -/
def eligPairs (folderName : String) : List Playstyle → List (String × String × Nat)
  | [] => []
  | p :: ps =>
    ((p.2.getD []).filter (fun c => !(c.name == folderName))).map
        (fun c => (p.1, c.name, c.mtime)) ++ eligPairs folderName ps

/-- The selection fold over the flattened eligible list (strict `>` update,
    line 101). -/
def selGo (acc : String × String × Nat) : List (String × String × Nat) → String × String × Nat
  | [] => acc
  | e :: es => if acc.2.2 < e.2.2 then selGo e es else selGo acc es

/-! ## BackupFolder entries and the BackupNamer (source lines 123-140, 173-182) -/

/-- One entry of the backup folder.  `isFile` distinguishes an archive file
    from a plain directory copy; `hasContents` says a directory copy is
    non-empty; `locked` models a deletion attempt raising
    `PermissionError`. -/
structure BEntry where
  name : String
  mtime : Nat
  isFile : Bool
  hasContents : Bool
  locked : Bool
deriving DecidableEq, Repr

/-- An archive-file entry that deletion may remove. -/
def fileE (nm : String) (mt : Nat) : BEntry := ⟨nm, mt, true, false, false⟩

/-- A non-empty plain directory-copy entry. -/
def dirE (nm : String) (mt : Nat) : BEntry := ⟨nm, mt, false, true, false⟩

/-- An archive-file entry whose deletion raises `PermissionError`. -/
def lockedE (nm : String) (mt : Nat) : BEntry := ⟨nm, mt, true, false, true⟩

/-- The association test of lines 133 and 155: `latest_save in backup`,
    plain substring containment. -/
def isAssoc (save : String) (e : BEntry) : Bool := strIn save e.name

/-- The backup entries the script treats as belonging to `save`. -/
def assocEntries (save : String) (folder : List BEntry) : List BEntry :=
  folder.filter (fun e => isAssoc save e)

/-- How many associated entries are strictly older than `e` (for stating
    which entries eviction removes). -/
def countOlder (save : String) (folder : List BEntry) (e : BEntry) : Nat :=
  ((assocEntries save folder).filter (fun x => decide (x.mtime < e.mtime))).length

/-- Sequence-number recovery from one backup filename (lines 137-139):
    `rpartition` on the separator, strip `SUFFIX_BEGIN` and `".zip"` (the
    extension variable still holds `".zip"` when the scan at line 132 runs),
    then `int(...)`. -/
def parseSeqNum (backup : String) : Option Nat :=
  parseNat (removeSuf ZIP_EXT.data (removePre SUFFIX_BEGIN.data
    (afterLastSep SUFFIX_SEPARATOR backup.data)))

/-- One step of the startup scan (lines 132-140): count the entry if it is
    associated and raise its parsed number + 1 into `backup_num` when that is
    not below the running value; a parse failure is the uncaught
    `ValueError`. -/
def scanStep (save : String) (acc : Option (Nat × Nat)) (e : BEntry) : Option (Nat × Nat) :=
  match acc with
  | none => none
  | some (bn, tn) =>
    if isAssoc save e then
      match parseSeqNum e.name with
      | none => none
      | some k => some (if bn ≤ k then k + 1 else bn, tn + 1)
    else some (bn, tn)

/-- The one-time startup scan of the backup folder (lines 129-140), producing
    `(backup_num, total_num)`. -/
def scanNums (save : String) (folder : List BEntry) : Option (Nat × Nat) :=
  folder.foldl (scanStep save) (some (0, 0))

/-- The f-string of lines 177 and 182:
    save + separator + prefix + number + extension. -/
def mkBackupName (save : String) (n : Nat) (ext : String) : String :=
  save ++ String.mk [SUFFIX_SEPARATOR] ++ SUFFIX_BEGIN ++ natStr n ++ ext

/-- `os.path.isfile(BACKUP_PATH / nm)` (line 180): true only when an entry
    with that name exists and is a regular file — a directory copy with the
    name does not satisfy it. -/
def existsFileNamed (folder : List BEntry) (nm : String) : Bool :=
  folder.any (fun e => e.isFile && e.name == nm)

/-- Number of regular-file entries in the folder (pigeonhole bound for the
    collision loop's fuel). -/
def countFiles (folder : List BEntry) : Nat := (folder.filter (fun e => e.isFile)).length

/-- The collision loop of lines 180-182: while the candidate name is an
    existing file, increment the number.  Fuel-driven; `countFiles + 1` steps
    always reach a free name (see the freeness theorem). -/
def findFree (folder : List BEntry) (save ext : String) : Nat → Nat → Nat
  | 0, n => n
  | fuel + 1, n =>
    if existsFileNamed folder (mkBackupName save n ext) then
      findFree folder save ext fuel (n + 1)
    else n

/-- The sequence number actually used for the next backup, starting from the
    in-memory `backup_num` (lines 177-182). -/
def freeBackupNum (folder : List BEntry) (save ext : String) (n : Nat) : Nat :=
  findFree folder save ext (countFiles folder + 1) n

/-! ## EvictionPolicy (source lines 148-171) -/

/-- The candidate scan of lines 151-159: over associated entries keep the one
    with the smallest mtime; the guard is
    `(not earliest_mod) or (modified_time < earliest_mod)` with
    `earliest_mod` starting at 0 (0 is falsy). -/
def evScan (save : String) (acc : String × Nat) : List BEntry → String × Nat
  | [] => acc
  | e :: es =>
    if isAssoc save e then
      if acc.2 = 0 ∨ e.mtime < acc.2 then evScan save (e.name, e.mtime) es
      else evScan save acc es
    else evScan save acc es

/-- The selected eviction candidate: `(earliest_backup, earliest_mod)`,
    starting from `("", 0)` (lines 151-152). -/
def selectEarliest (save : String) (folder : List BEntry) : String × Nat :=
  evScan save ("", 0) folder

/-- Outcome of one deletion attempt (lines 162-169). -/
inductive DelResult
  | deleted (rest : List BEntry)
  | permissionDenied
  | crash
deriving DecidableEq, Repr

/-- One deletion attempt (lines 162-169): `os.remove` for a file, `os.rmdir`
    for anything else; only `PermissionError` is caught.  `os.rmdir` removes
    an *empty* directory and raises an uncaught `OSError` on a non-empty one.
    When no entry carries the selected name (only possible when no entry is
    associated, so the scan returned `""` and the joined path is the backup
    folder itself) the attempt is modelled as the abnormal `crash` outcome;
    no claim exercises that corner. -/
def deleteEntry (folder : List BEntry) (nm : String) : DelResult :=
  match folder.find? (fun e => e.name == nm) with
  | none => .crash
  | some e =>
    if e.locked then .permissionDenied
    else if e.isFile then .deleted (folder.filter (fun x => !(x.name == nm)))
    else if e.hasContents then .crash
    else .deleted (folder.filter (fun x => !(x.name == nm)))

/-- Result of the eviction phase: whether an uncaught exception ended the
    script, the folder and in-memory `total_num` afterwards, and how many
    loop iterations ran. -/
structure EvictResult where
  crashed : Bool
  folder : List BEntry
  total : Nat
  iters : Nat
deriving DecidableEq, Repr

/-- The `while total_num >= LIMIT` loop of lines 150-171.  Each pass rescans
    the folder, attempts one deletion and - crucially - decrements
    `total_num` *outside* the `try` (line 171), so the decrement happens even
    when the deletion raised `PermissionError`.  Fuel-driven: `total + 1`
    steps always suffice because `total` drops every pass (the
    fuel-irrelevance theorem makes this exact). -/
def evictLoop (limit : Nat) (save : String) : Nat → List BEntry → Nat → EvictResult
  | 0, folder, total => ⟨false, folder, total, 0⟩
  | fuel + 1, folder, total =>
    if limit ≤ total then
      match deleteEntry folder (selectEarliest save folder).1 with
      | .crash => ⟨true, folder, total, 1⟩
      | .permissionDenied =>
        let r := evictLoop limit save fuel folder (total - 1)
        ⟨r.crashed, r.folder, r.total, r.iters + 1⟩
      | .deleted f2 =>
        let r := evictLoop limit save fuel f2 (total - 1)
        ⟨r.crashed, r.folder, r.total, r.iters + 1⟩
    else ⟨false, folder, total, 0⟩

/-- The whole eviction phase: `if LIMIT:` (line 149) guards the loop, so
    limit 0 means unlimited and is a no-op. -/
def evictBackups (limit : Nat) (save : String) (folder : List BEntry) (total : Nat) :
    EvictResult :=
  if limit = 0 then ⟨false, folder, total, 0⟩
  else evictLoop limit save (total + 1) folder total

/-! ## One pass of the backup loop (source lines 146-239, archive writer
       abstracted as the spec's ArchiveProducer) -/

/-- The in-memory rotation state the loop threads between iterations:
    `backup_num` (line 127), `total_num` (line 130) and `last_mod`
    (line 142). -/
structure LoopState where
  backup_num : Nat
  total_num : Nat
  last_mod : Nat
deriving DecidableEq, Repr

/-- Environment inputs of one iteration: the mtime the filesystem gives the
    artifact just written, and the save directory's mtime as line 223 reads
    it after the write. -/
structure IterEnv where
  artifactMtime : Nat
  saveMtime : Nat
deriving DecidableEq, Repr

/-- One pass of the `while current_mod != last_mod` body (lines 146-223):
    evict as needed, pick the next name (clearing the extension when not
    zipping, lines 174-175), write the artifact, then update the rotation
    state.  A `crash` during eviction ends the script (`none`); so does the
    exclusive create (`zipfile` mode `'x'` / `copytree`) hitting an existing
    entry with the chosen name — by the freeness theorem only a directory
    copy can collide.  The sleep/re-check tail and the fatal write-permission
    exits are outside every claim and not modelled. -/
def loopIter (limit : Nat) (method : Bool) (save : String) (folder : List BEntry)
    (st : LoopState) (env : IterEnv) : Option (List BEntry × LoopState) :=
  let ev := evictBackups limit save folder st.total_num
  if ev.crashed then none
  else
    let ext := if method then ZIP_EXT else ""
    let n := freeBackupNum ev.folder save ext st.backup_num
    let nm := mkBackupName save n ext
    if ev.folder.any (fun e => e.name == nm) then none
    else some (ev.folder ++ [⟨nm, env.artifactMtime, method, true, false⟩],
               ⟨n + 1, ev.total + 1, env.saveMtime⟩)

/-! ## String and digit lemmas -/

theorem mk_data (l : List Char) : (String.mk l).data = l := rfl

theorem charsStart_of_append (x y b : List Char) (h : charsStart (x ++ y) b = true) :
    charsStart x b = true := by
  induction x generalizing b with
  | nil => rfl
  | cons a as ih =>
    cases b with
    | nil => simp [charsStart] at h
    | cons c cs =>
      simp only [List.cons_append, charsStart, Bool.and_eq_true] at h ⊢
      exact ⟨h.1, ih cs h.2⟩

theorem charsContain_of_start (x b : List Char) (h : charsStart x b = true) :
    charsContain x b = true := by
  cases b with
  | nil => simpa [charsContain] using h
  | cons c cs => simp [charsContain, h]

theorem valDigits_append (xs : List Char) (c : Char) :
    valDigits (xs ++ [c]) = valDigits xs * 10 + (c.toNat - 48) := by
  simp [valDigits, List.foldl_append]

theorem digitChar_val (d : Nat) (h : d < 10) : (digitChar d).toNat - 48 = d := by
  interval_cases d <;> rfl

theorem natDigitsAux_val (fuel : Nat) : ∀ n, n < fuel → valDigits (natDigitsAux fuel n) = n := by
  induction fuel with
  | zero => intro n h; omega
  | succ f ih =>
    intro n h
    by_cases h10 : n < 10
    · simp only [natDigitsAux, if_pos h10, valDigits, List.foldl_cons, List.foldl_nil]
      have := digitChar_val n h10
      omega
    · have hlt : n / 10 < n := Nat.div_lt_self (by omega) (by omega)
      have hf : n / 10 < f := by omega
      simp only [natDigitsAux, if_neg h10, valDigits_append, ih _ hf]
      have := digitChar_val (n % 10) (Nat.mod_lt n (by omega))
      omega

theorem natDigits_val (n : Nat) : valDigits (natDigits n) = n :=
  natDigitsAux_val (n + 1) n (Nat.lt_succ_self n)

theorem natDigits_inj {n m : Nat} (h : natDigits n = natDigits m) : n = m := by
  have := natDigits_val n
  rw [h, natDigits_val] at this
  omega

theorem mkBackupName_inj (save ext : String) {n m : Nat}
    (h : mkBackupName save n ext = mkBackupName save m ext) : n = m := by
  have hd : (mkBackupName save n ext).data = (mkBackupName save m ext).data := by rw [h]
  simp only [mkBackupName, String.data_append, natStr, mk_data] at hd
  have h1 := List.append_cancel_right hd
  have h2 := List.append_cancel_left h1
  exact natDigits_inj h2

/-! ## SaveLocator lemmas -/

theorem selGo_append (acc : String × String × Nat) (xs ys : List (String × String × Nat)) :
    selGo acc (xs ++ ys) = selGo (selGo acc xs) ys := by
  induction xs generalizing acc with
  | nil => rfl
  | cons e es ih => by_cases h : acc.2.2 < e.2.2 <;> simp [selGo, h, ih]

theorem scanChildren_eq (folderName pname : String) (cs : List DirChild) :
    ∀ acc, scanChildren folderName pname acc cs =
      selGo acc ((cs.filter (fun c => !(c.name == folderName))).map
        (fun c => (pname, c.name, c.mtime))) := by
  induction cs with
  | nil => intro acc; rfl
  | cons c cs ih =>
    intro acc
    by_cases hn : c.name = folderName
    · simp [scanChildren, hn, ih]
    · by_cases hm : acc.2.2 < c.mtime <;>
        simp [scanChildren, hn, hm, selGo, ih]

theorem scanPlaystyles_eq (folderName : String) (pls : List Playstyle) :
    ∀ acc, (∀ q ∈ pls, q.2.isSome) →
      scanPlaystyles folderName acc pls = some (selGo acc (eligPairs folderName pls)) := by
  induction pls with
  | nil => intro acc _; rfl
  | cons p ps ih =>
    intro acc h
    obtain ⟨pn, pl⟩ := p
    cases pl with
    | none =>
      have := h (pn, none) (by simp)
      simp at this
    | some cs =>
      simp only [scanPlaystyles, eligPairs, Option.getD_some]
      rw [selGo_append, ← scanChildren_eq]
      exact ih _ (fun q hq => h q (by simp [hq]))

theorem scanPlaystyles_none (folderName : String) (pls : List Playstyle) :
    ∀ acc, (scanPlaystyles folderName acc pls = none ↔ ∃ q ∈ pls, q.2 = none) := by
  induction pls with
  | nil => intro acc; simp [scanPlaystyles]
  | cons p ps ih =>
    intro acc
    obtain ⟨pn, pl⟩ := p
    cases pl with
    | none => simp [scanPlaystyles]
    | some cs => simp [scanPlaystyles, ih]

theorem selGo_no_update (l : List (String × String × Nat)) :
    ∀ acc, (∀ e ∈ l, e.2.2 ≤ acc.2.2) → selGo acc l = acc := by
  induction l with
  | nil => intro acc _; rfl
  | cons e es ih =>
    intro acc h
    have he : ¬ acc.2.2 < e.2.2 := not_lt.mpr (h e (by simp))
    simp only [selGo, if_neg he]
    exact ih acc (fun x hx => h x (by simp [hx]))

theorem selGo_first_max (pre : List (String × String × Nat)) :
    ∀ (post : List (String × String × Nat)) (x acc : String × String × Nat),
      (∀ e ∈ pre, e.2.2 < x.2.2) → (∀ e ∈ post, e.2.2 ≤ x.2.2) → acc.2.2 < x.2.2 →
      selGo acc (pre ++ x :: post) = x := by
  induction pre with
  | nil =>
    intro post x acc _ hpost hacc
    simp only [List.nil_append, selGo, if_pos hacc]
    exact selGo_no_update post x hpost
  | cons e es ih =>
    intro post x acc hpre hpost hacc
    have he := hpre e (by simp)
    by_cases hu : acc.2.2 < e.2.2
    · simp only [List.cons_append, selGo, if_pos hu]
      exact ih post x e (fun a ha => hpre a (by simp [ha])) hpost he
    · simp only [List.cons_append, selGo, if_neg hu]
      exact ih post x acc (fun a ha => hpre a (by simp [ha])) hpost hacc

theorem exists_first_max (l : List (String × String × Nat)) (h : l ≠ []) :
    ∃ pre x post, l = pre ++ x :: post ∧ (∀ e ∈ pre, e.2.2 < x.2.2) ∧
      (∀ e ∈ post, e.2.2 ≤ x.2.2) := by
  induction l with
  | nil => exact absurd rfl h
  | cons a rest ih =>
    cases rest with
    | nil => exact ⟨[], a, [], rfl, by simp, by simp⟩
    | cons b bs =>
      obtain ⟨pre, x, post, heq, hpre, hpost⟩ := ih (by simp)
      by_cases hax : a.2.2 < x.2.2
      · refine ⟨a :: pre, x, post, by rw [heq, List.cons_append], ?_, hpost⟩
        intro e he
        rcases List.mem_cons.mp he with h1 | h2
        · rw [h1]; exact hax
        · exact hpre e h2
      · refine ⟨[], a, b :: bs, rfl, by simp, ?_⟩
        intro e he
        rw [heq] at he
        rcases List.mem_append.mp he with h1 | h2
        · exact le_trans (le_of_lt (hpre e h1)) (not_lt.mp hax)
        · rcases List.mem_cons.mp h2 with h3 | h4
          · rw [h3]; exact not_lt.mp hax
          · exact le_trans (hpost e h4) (not_lt.mp hax)

/-! ## Eviction candidate-scan lemmas -/

theorem evScan_no_update (save : String) (l : List BEntry) :
    ∀ nm mt, 1 ≤ mt → (∀ e ∈ l, isAssoc save e = true → ¬ e.mtime < mt) →
      evScan save (nm, mt) l = (nm, mt) := by
  induction l with
  | nil => intro nm mt _ _; rfl
  | cons e es ih =>
    intro nm mt hmt h
    by_cases ha : isAssoc save e = true
    · have hg : ¬ ((nm, mt).2 = 0 ∨ e.mtime < (nm, mt).2) := by
        simp only [not_or]
        exact ⟨by omega, h e (by simp) ha⟩
      simp only [evScan, if_pos ha, if_neg hg]
      exact ih nm mt hmt (fun x hx => h x (by simp [hx]))
    · simp only [evScan, if_neg ha]
      exact ih nm mt hmt (fun x hx => h x (by simp [hx]))

theorem evScan_min (save : String) (l : List BEntry) :
    ∀ nm mt (m : BEntry), 1 ≤ mt → 1 ≤ m.mtime → m ∈ l → isAssoc save m = true →
      m.mtime < mt → (∀ x ∈ l, isAssoc save x = true → x ≠ m → m.mtime < x.mtime) →
      evScan save (nm, mt) l = (m.name, m.mtime) := by
  induction l with
  | nil => intro nm mt m _ _ hm; simp at hm
  | cons e es ih =>
    intro nm mt m hmt hm1 hm ha hlt hmin
    by_cases hae : isAssoc save e = true
    · by_cases hem : e = m
      · subst hem
        have hg : ((nm, mt).2 = 0 ∨ e.mtime < (nm, mt).2) := Or.inr hlt
        simp only [evScan, if_pos hae, if_pos hg]
        apply evScan_no_update save es e.name e.mtime hm1
        intro x hx hax
        by_cases hxe : x = e
        · rw [hxe]; omega
        · have := hmin x (by simp [hx]) hax hxe; omega
      · have hm' : m ∈ es := by
          rcases List.mem_cons.mp hm with h1 | h2
          · exact absurd h1.symm hem
          · exact h2
        have hme : m.mtime < e.mtime := hmin e (by simp) hae hem
        by_cases hg : ((nm, mt).2 = 0 ∨ e.mtime < (nm, mt).2)
        · simp only [evScan, if_pos hae, if_pos hg]
          have he1 : 1 ≤ e.mtime := by omega
          exact ih e.name e.mtime m he1 hm1 hm' ha hme
            (fun x hx => hmin x (by simp [hx]))
        · simp only [evScan, if_pos hae, if_neg hg]
          exact ih nm mt m hmt hm1 hm' ha hlt (fun x hx => hmin x (by simp [hx]))
    · have hem : m ≠ e := fun hc => hae (hc ▸ ha)
      have hm' : m ∈ es := by
        rcases List.mem_cons.mp hm with h1 | h2
        · exact absurd h1 hem
        · exact h2
      simp only [evScan, if_neg hae]
      exact ih nm mt m hmt hm1 hm' ha hlt (fun x hx => hmin x (by simp [hx]))

theorem selectEarliest_min (save : String) (folder : List BEntry) (m : BEntry)
    (hm : m ∈ folder) (ha : isAssoc save m = true) (h1 : ∀ x ∈ folder, isAssoc save x = true → 1 ≤ x.mtime)
    (hmin : ∀ x ∈ folder, isAssoc save x = true → x ≠ m → m.mtime < x.mtime) :
    selectEarliest save folder = (m.name, m.mtime) := by
  unfold selectEarliest
  induction folder with
  | nil => simp at hm
  | cons e es ih =>
    by_cases hae : isAssoc save e = true
    · have hg : (("", 0) : String × Nat).2 = 0 ∨ e.mtime < (("", 0) : String × Nat).2 := Or.inl rfl
      simp only [evScan, if_pos hae, if_pos hg]
      by_cases hem : e = m
      · subst hem
        apply evScan_no_update save es e.name e.mtime (h1 e (by simp) hae)
        intro x hx hax
        by_cases hxe : x = e
        · rw [hxe]; omega
        · have := hmin x (by simp [hx]) hax hxe; omega
      · have hm' : m ∈ es := by
          rcases List.mem_cons.mp hm with hh | hh
          · exact absurd hh.symm hem
          · exact hh
        exact evScan_min save es e.name e.mtime m (h1 e (by simp) hae)
          (h1 m hm ha) hm' ha (hmin e (by simp) hae hem)
          (fun x hx => hmin x (by simp [hx]))
    · have hem : m ≠ e := fun hc => hae (hc ▸ ha)
      have hm' : m ∈ es := by
        rcases List.mem_cons.mp hm with hh | hh
        · exact absurd hh hem
        · exact hh
      simp only [evScan, if_neg hae]
      exact ih hm' (fun x hx => h1 x (by simp [hx])) (fun x hx => hmin x (by simp [hx]))

theorem evScan_mem (save : String) (l : List BEntry) :
    ∀ acc : String × Nat, evScan save acc l = acc ∨
      ∃ m ∈ l, isAssoc save m = true ∧ evScan save acc l = (m.name, m.mtime) := by
  induction l with
  | nil => intro acc; exact Or.inl rfl
  | cons e es ih =>
    intro acc
    by_cases hae : isAssoc save e = true
    · by_cases hg : (acc.2 = 0 ∨ e.mtime < acc.2)
      · simp only [evScan, if_pos hae, if_pos hg]
        rcases ih (e.name, e.mtime) with h | ⟨m, hm, ham, hv⟩
        · exact Or.inr ⟨e, by simp, hae, h⟩
        · exact Or.inr ⟨m, by simp [hm], ham, hv⟩
      · simp only [evScan, if_pos hae, if_neg hg]
        rcases ih acc with h | ⟨m, hm, ham, hv⟩
        · exact Or.inl h
        · exact Or.inr ⟨m, by simp [hm], ham, hv⟩
    · simp only [evScan, if_neg hae]
      rcases ih acc with h | ⟨m, hm, ham, hv⟩
      · exact Or.inl h
      · exact Or.inr ⟨m, by simp [hm], ham, hv⟩

/-! ## Folder bookkeeping lemmas -/

theorem name_inj_of_nodup {folder : List BEntry}
    (hnd : (folder.map BEntry.name).Nodup) {a b : BEntry}
    (ha : a ∈ folder) (hb : b ∈ folder) (h : a.name = b.name) : a = b :=
  List.inj_on_of_nodup_map hnd ha hb h

theorem find_name_nodup {folder : List BEntry} (hnd : (folder.map BEntry.name).Nodup)
    {m : BEntry} (hm : m ∈ folder) :
    folder.find? (fun e => e.name == m.name) = some m := by
  induction folder with
  | nil => simp at hm
  | cons e es ih =>
    by_cases he : e.name = m.name
    · have : e = m := name_inj_of_nodup hnd (by simp) hm he
      subst this
      simp [List.find?]
    · have hm' : m ∈ es := by
        rcases List.mem_cons.mp hm with hh | hh
        · exact absurd (hh ▸ rfl) he
        · exact hh
      have hne : (e.name == m.name) = false := by simp [he]
      simp only [List.find?, hne]
      exact ih (by simpa using (List.nodup_cons.mp (by simpa using hnd)).2) hm'

theorem remove_len {l : List BEntry} (hnd : (l.map BEntry.name).Nodup)
    {m : BEntry} (hm : m ∈ l) :
    (l.filter (fun x => !(x.name == m.name))).length + 1 = l.length := by
  induction l with
  | nil => simp at hm
  | cons e es ih =>
    have hnd' : (es.map BEntry.name).Nodup := (List.nodup_cons.mp (by simpa using hnd)).2
    by_cases he : e.name = m.name
    · have hem : e = m := name_inj_of_nodup hnd (by simp) hm he
      subst hem
      have hall : es.filter (fun x => !(x.name == e.name)) = es := by
        rw [List.filter_eq_self]
        intro a ha
        have : a.name ≠ e.name := by
          intro hc
          have : e.name ∈ es.map BEntry.name := by
            exact List.mem_map.mpr ⟨a, ha, hc⟩
          exact (List.nodup_cons.mp (by simpa using hnd)).1 this
        simp [this]
      simp [List.filter_cons, hall]
    · have hm' : m ∈ es := by
        rcases List.mem_cons.mp hm with hh | hh
        · exact absurd (hh ▸ rfl) he
        · exact hh
      have hkeep : (!(e.name == m.name)) = true := by simp [he]
      simp only [List.filter_cons, hkeep, if_pos]
      simp only [List.length_cons]
      rw [← ih hnd' hm']

theorem isAssoc_of_name_eq (save : String) {a b : BEntry} (h : a.name = b.name) :
    isAssoc save a = isAssoc save b := by
  simp [isAssoc, h]

theorem deleteEntry_clean {folder : List BEntry} (hnd : (folder.map BEntry.name).Nodup)
    {m : BEntry} (hm : m ∈ folder) (hf : m.isFile = true) (hl : m.locked = false) :
    deleteEntry folder m.name = .deleted (folder.filter (fun x => !(x.name == m.name))) := by
  unfold deleteEntry
  rw [find_name_nodup hnd hm]
  simp [hl, hf]

theorem deleteEntry_locked {folder : List BEntry} {nm : String}
    (hall : ∀ e ∈ folder, e.name = nm → e.locked = true)
    (hex : ∃ e ∈ folder, e.name = nm) :
    deleteEntry folder nm = .permissionDenied := by
  unfold deleteEntry
  cases hfind : folder.find? (fun e => e.name == nm) with
  | none =>
    obtain ⟨e, he, hn⟩ := hex
    rw [List.find?_eq_none] at hfind
    exact absurd (by simpa using hn) (hfind e he)
  | some x =>
    have hx := List.find?_some hfind
    have hxm := List.mem_of_find?_eq_some hfind
    have : x.locked = true := hall x hxm (by simpa using hx)
    simp [this]

theorem evictLoop_under (limit : Nat) (save : String) (fuel : Nat) (folder : List BEntry)
    (total : Nat) (h : total < limit) :
    evictLoop limit save fuel folder total = ⟨false, folder, total, 0⟩ := by
  cases fuel with
  | zero => rfl
  | succ f => simp [evictLoop, Nat.not_le.mpr h]

theorem evictLoop_bound_if (limit : Nat) (save : String) (hl : 1 ≤ limit) (fuel : Nat) :
    ∀ folder total, (evictLoop limit save fuel folder total).iters ≤
      (if limit ≤ total then total - limit + 1 else 0) := by
  induction fuel with
  | zero => intro folder total; simp [evictLoop]
  | succ f ih =>
    intro folder total
    by_cases hg : limit ≤ total
    · simp only [evictLoop, if_pos hg]
      cases hdel : deleteEntry folder (selectEarliest save folder).1 with
      | crash => dsimp only; omega
      | permissionDenied =>
        dsimp only
        have hb := ih folder (total - 1)
        by_cases h2 : limit ≤ total - 1
        · rw [if_pos h2] at hb; omega
        · rw [if_neg h2] at hb; omega
      | deleted f2 =>
        dsimp only
        have hb := ih f2 (total - 1)
        by_cases h2 : limit ≤ total - 1
        · rw [if_pos h2] at hb; omega
        · rw [if_neg h2] at hb; omega
    · simp [evictLoop, hg]

theorem evictLoop_bound (limit : Nat) (save : String) (hl : 1 ≤ limit) (fuel : Nat)
    (folder : List BEntry) (total : Nat) :
    (evictLoop limit save fuel folder total).iters ≤ total - limit + 1 := by
  have := evictLoop_bound_if limit save hl fuel folder total
  by_cases hg : limit ≤ total
  · rwa [if_pos hg] at this
  · rw [if_neg hg] at this; omega

theorem evictLoop_congr (limit : Nat) (save : String) (hl : 1 ≤ limit) (f1 : Nat) :
    ∀ f2 folder total, total < f1 → total < f2 →
      evictLoop limit save f1 folder total = evictLoop limit save f2 folder total := by
  induction f1 with
  | zero => intro f2 folder total h1; omega
  | succ a ih =>
    intro f2 folder total h1 h2
    cases f2 with
    | zero => omega
    | succ b =>
      by_cases hg : limit ≤ total
      · simp only [evictLoop, if_pos hg]
        cases hdel : deleteEntry folder (selectEarliest save folder).1 with
        | crash => rfl
        | permissionDenied =>
          dsimp only
          rw [ih b folder (total - 1) (by omega) (by omega)]
        | deleted f2' =>
          dsimp only
          rw [ih b f2' (total - 1) (by omega) (by omega)]
      · simp only [evictLoop, if_neg hg]

theorem evictLoop_final_total (limit : Nat) (save : String) (hl : 1 ≤ limit) (fuel : Nat) :
    ∀ folder total, total < fuel →
      (evictLoop limit save fuel folder total).crashed = false →
      (evictLoop limit save fuel folder total).total =
        if limit ≤ total then limit - 1 else total := by
  induction fuel with
  | zero => intro folder total h1; omega
  | succ f ih =>
    intro folder total h1
    by_cases hg : limit ≤ total
    · simp only [evictLoop, if_pos hg]
      cases hdel : deleteEntry folder (selectEarliest save folder).1 with
      | crash => intro hc; simp at hc
      | permissionDenied =>
        dsimp only
        intro hc
        rw [ih folder (total - 1) (by omega) hc]
        by_cases h2 : limit ≤ total - 1
        · simp [h2, hg]
        · simp [h2, hg]
          omega
      | deleted f2 =>
        dsimp only
        intro hc
        rw [ih f2 (total - 1) (by omega) hc]
        by_cases h2 : limit ≤ total - 1
        · simp [h2, hg]
        · simp [h2, hg]
          omega
    · intro _
      simp [evictLoop, hg]

theorem min_mtime_exists (l : List BEntry) (hne : l ≠ [])
    (hp : l.Pairwise (fun a b => a.mtime ≠ b.mtime)) :
    ∃ m ∈ l, ∀ x ∈ l, x ≠ m → m.mtime < x.mtime := by
  induction l with
  | nil => exact absurd rfl hne
  | cons a rest ih =>
    have hpa := (List.pairwise_cons.mp hp).1
    have hpr := (List.pairwise_cons.mp hp).2
    cases rest with
    | nil =>
      refine ⟨a, by simp, ?_⟩
      intro x hx hne2
      simp at hx
      exact absurd hx hne2
    | cons b bs =>
      obtain ⟨m', hm', hmin'⟩ := ih (by simp) hpr
      by_cases ham : a.mtime < m'.mtime
      · refine ⟨a, by simp, ?_⟩
        intro x hx hxa
        rcases List.mem_cons.mp hx with h1 | h2
        · exact absurd h1 hxa
        · by_cases hxm : x = m'
          · rw [hxm]; exact ham
          · exact lt_trans ham (hmin' x h2 hxm)
      · have hne3 : a.mtime ≠ m'.mtime := hpa m' hm'
        have hma : m'.mtime < a.mtime := by omega
        refine ⟨m', by simp [hm'], ?_⟩
        intro x hx hxm
        rcases List.mem_cons.mp hx with h1 | h2
        · rw [h1]; exact hma
        · exact hmin' x h2 hxm

theorem mem_assocEntries {save : String} {folder : List BEntry} {e : BEntry} :
    e ∈ assocEntries save folder ↔ e ∈ folder ∧ isAssoc save e = true := by
  simp [assocEntries, List.mem_filter]

theorem assocEntries_names_nodup {save : String} {folder : List BEntry}
    (hnd : (folder.map BEntry.name).Nodup) :
    ((assocEntries save folder).map BEntry.name).Nodup :=
  hnd.sublist ((List.filter_sublist folder).map BEntry.name)

theorem filter_swap (l : List BEntry) (p q : BEntry → Bool) :
    (l.filter p).filter q = (l.filter q).filter p := by
  rw [List.filter_filter, List.filter_filter]
  exact List.filter_congr (fun a _ => Bool.and_comm (q a) (p a))

theorem selectEarliest_assoc (save : String) (folder : List BEntry)
    (hex : ∃ e ∈ folder, isAssoc save e = true) :
    ∃ m ∈ folder, isAssoc save m = true ∧ selectEarliest save folder = (m.name, m.mtime) := by
  induction folder with
  | nil => simp at hex
  | cons e es ih =>
    by_cases hae : isAssoc save e = true
    · have hg : (("", 0) : String × Nat).2 = 0 ∨ e.mtime < (("", 0) : String × Nat).2 :=
        Or.inl rfl
      unfold selectEarliest
      simp only [evScan, if_pos hae, if_pos hg]
      rcases evScan_mem save es (e.name, e.mtime) with h | ⟨m, hm, ham, hv⟩
      · exact ⟨e, by simp, hae, h⟩
      · exact ⟨m, by simp [hm], ham, hv⟩
    · obtain ⟨e0, he0, ha0⟩ := hex
      have he0' : e0 ∈ es := by
        rcases List.mem_cons.mp he0 with hh | hh
        · rw [hh] at ha0; exact absurd ha0 hae
        · exact hh
      obtain ⟨m, hm, ham, hv⟩ := ih ⟨e0, he0', ha0⟩
      refine ⟨m, by simp [hm], ham, ?_⟩
      unfold selectEarliest at hv ⊢
      simpa only [evScan, if_neg hae] using hv

theorem evictLoop_locked (limit : Nat) (save : String) (hl : 1 ≤ limit) (fuel : Nat) :
    ∀ total folder, total < fuel →
      (∀ e ∈ folder, isAssoc save e = true → e.locked = true) →
      (∃ e ∈ folder, isAssoc save e = true) →
      limit ≤ total →
      evictLoop limit save fuel folder total = ⟨false, folder, limit - 1, total - limit + 1⟩ := by
  induction fuel with
  | zero => intro total folder h1 _ _ _; omega
  | succ f ih =>
    intro total folder h1 hlock hex hg
    obtain ⟨m, hmF, hmA, hsel⟩ := selectEarliest_assoc save folder hex
    have hdel : deleteEntry folder m.name = .permissionDenied := by
      apply deleteEntry_locked
      · intro e he hne
        exact hlock e he ((isAssoc_of_name_eq save hne).trans hmA)
      · exact ⟨m, hmF, rfl⟩
    simp only [evictLoop, if_pos hg, hsel]
    rw [hdel]
    dsimp only
    by_cases hcase : limit ≤ total - 1
    · rw [ih (total - 1) folder (by omega) hlock hex hcase]
      dsimp only
      have : total - 1 - limit + 1 + 1 = total - limit + 1 := by omega
      rw [this]
    · rw [evictLoop_under limit save f folder (total - 1) (by omega)]
      dsimp only
      have h1' : total - limit + 1 = 1 := by omega
      have h2' : total - 1 = limit - 1 := by omega
      rw [h1', h2']

theorem countOlder_min_zero {save : String} {folder : List BEntry} {m : BEntry}
    (hmin : ∀ x ∈ folder, isAssoc save x = true → x ≠ m → m.mtime < x.mtime) :
    countOlder save folder m = 0 := by
  unfold countOlder
  have : (assocEntries save folder).filter (fun x => decide (x.mtime < m.mtime)) = [] := by
    rw [List.filter_eq_nil_iff]
    intro x hx
    obtain ⟨hxF, hxA⟩ := mem_assocEntries.mp hx
    by_cases hxm : x = m
    · rw [hxm]; simp
    · have := hmin x hxF hxA hxm
      simp
      omega
  rw [this]
  rfl

theorem countOlder_pos {save : String} {folder : List BEntry} {m e : BEntry}
    (hmF : m ∈ folder) (hmA : isAssoc save m = true) (hlt : m.mtime < e.mtime) :
    1 ≤ countOlder save folder e := by
  unfold countOlder
  have hm : m ∈ (assocEntries save folder).filter (fun x => decide (x.mtime < e.mtime)) := by
    rw [List.mem_filter]
    exact ⟨mem_assocEntries.mpr ⟨hmF, hmA⟩, by simpa using hlt⟩
  exact List.length_pos_of_mem hm

theorem countOlder_remove {save : String} {folder : List BEntry} {m e : BEntry}
    (hnd : (folder.map BEntry.name).Nodup) (hmF : m ∈ folder) (hmA : isAssoc save m = true)
    (hlt : m.mtime < e.mtime) :
    countOlder save (folder.filter (fun x => !(x.name == m.name))) e + 1 =
      countOlder save folder e := by
  unfold countOlder
  have h1 : assocEntries save (folder.filter (fun x => !(x.name == m.name))) =
      (assocEntries save folder).filter (fun x => !(x.name == m.name)) := by
    unfold assocEntries
    exact filter_swap folder _ _
  rw [h1, filter_swap]
  apply remove_len
  · exact (assocEntries_names_nodup hnd).sublist ((List.filter_sublist _).map BEntry.name)
  · rw [List.mem_filter]
    exact ⟨mem_assocEntries.mpr ⟨hmF, hmA⟩, by simpa using hlt⟩

theorem evictLoop_clean (limit : Nat) (save : String) (hl : 1 ≤ limit) (fuel : Nat) :
    ∀ total folder, total < fuel →
      (∀ e ∈ folder, isAssoc save e = true → e.isFile = true ∧ e.locked = false ∧ 1 ≤ e.mtime) →
      ((folder.map BEntry.name).Nodup) →
      ((assocEntries save folder).Pairwise (fun a b => a.mtime ≠ b.mtime)) →
      total = (assocEntries save folder).length →
      limit ≤ total →
      evictLoop limit save fuel folder total =
        ⟨false,
         folder.filter (fun e =>
           !(isAssoc save e) || decide ((total - limit + 1) ≤ countOlder save folder e)),
         limit - 1, total - limit + 1⟩ := by
  induction fuel with
  | zero => intro total folder h1 _ _ _ _ _; omega
  | succ f ih =>
    intro total folder h1 hA hnd hC hlen hg
    have hAne : assocEntries save folder ≠ [] := by
      intro hc
      rw [hc] at hlen
      simp at hlen
      omega
    obtain ⟨m, hmA, hmin'⟩ := min_mtime_exists _ hAne hC
    have hmF : m ∈ folder := (mem_assocEntries.mp hmA).1
    have hmAs : isAssoc save m = true := (mem_assocEntries.mp hmA).2
    have hmin : ∀ x ∈ folder, isAssoc save x = true → x ≠ m → m.mtime < x.mtime :=
      fun x hx hax hne => hmin' x (mem_assocEntries.mpr ⟨hx, hax⟩) hne
    have hsel : selectEarliest save folder = (m.name, m.mtime) :=
      selectEarliest_min save folder m hmF hmAs (fun x hx hax => (hA x hx hax).2.2) hmin
    have hdel : deleteEntry folder m.name =
        .deleted (folder.filter (fun x => !(x.name == m.name))) :=
      deleteEntry_clean hnd hmF (hA m hmF hmAs).1 (hA m hmF hmAs).2.1
    have hnameF : ∀ e ∈ folder, isAssoc save e = false → (!(e.name == m.name)) = true := by
      intro e he hae
      have hne : e.name ≠ m.name := by
        intro hc
        rw [isAssoc_of_name_eq save hc, hmAs] at hae
        exact Bool.noConfusion hae
      simp [hne]
    simp only [evictLoop, if_pos hg, hsel]
    rw [hdel]
    dsimp only
    by_cases hcase : limit ≤ total - 1
    · have hsub2 : ∀ x ∈ folder.filter (fun x => !(x.name == m.name)), x ∈ folder :=
        fun x hx => (List.mem_filter.mp hx).1
      have hnd2 : ((folder.filter (fun x => !(x.name == m.name))).map BEntry.name).Nodup :=
        hnd.sublist ((List.filter_sublist folder).map BEntry.name)
      have hA2 : ∀ e ∈ folder.filter (fun x => !(x.name == m.name)),
          isAssoc save e = true → e.isFile = true ∧ e.locked = false ∧ 1 ≤ e.mtime :=
        fun e he hae => hA e (hsub2 e he) hae
      have hassoc2 : assocEntries save (folder.filter (fun x => !(x.name == m.name))) =
          (assocEntries save folder).filter (fun x => !(x.name == m.name)) := by
        unfold assocEntries
        exact filter_swap folder _ _
      have hC2 : (assocEntries save (folder.filter (fun x => !(x.name == m.name)))).Pairwise
          (fun a b => a.mtime ≠ b.mtime) := by
        rw [hassoc2]
        exact hC.sublist (List.filter_sublist _)
      have hlen2 : (assocEntries save (folder.filter (fun x => !(x.name == m.name)))).length =
          total - 1 := by
        rw [hassoc2]
        have := remove_len (assocEntries_names_nodup hnd) hmA
        omega
      rw [ih (total - 1) _ (by omega) hA2 hnd2 hC2 hlen2.symm hcase]
      dsimp only
      have hfe : (folder.filter (fun x => !(x.name == m.name))).filter
            (fun e => !(isAssoc save e) ||
              decide ((total - 1 - limit + 1) ≤
                countOlder save (folder.filter (fun x => !(x.name == m.name))) e)) =
          folder.filter (fun e =>
            !(isAssoc save e) || decide ((total - limit + 1) ≤ countOlder save folder e)) := by
        rw [List.filter_filter]
        apply List.filter_congr
        intro e he
        by_cases hae : isAssoc save e = true
        · by_cases hem : e = m
          · subst hem
            have h0 : countOlder save folder e = 0 := countOlder_min_zero hmin
            have hd : ¬ ((total - limit + 1) ≤ countOlder save folder e) := by
              rw [h0]; omega
            simp [hae, hd]
          · have hnq : e.name ≠ m.name := fun hc => hem (name_inj_of_nodup hnd he hmF hc)
            have hco := countOlder_remove hnd hmF hmAs (hmin e he hae hem)
            simp only [hae, Bool.not_true, Bool.false_or]
            have hbq : (!(e.name == m.name)) = true := by simp [hnq]
            rw [hbq, Bool.and_true]
            rw [decide_eq_decide]
            omega
        · have hae' : isAssoc save e = false := by
            revert hae; cases isAssoc save e <;> simp
          have hnm := hnameF e he hae'
          simp [hae', hnm]
      simp only [EvictResult.mk.injEq]
      exact ⟨trivial, hfe, trivial, by omega⟩
    · rw [evictLoop_under limit save f _ (total - 1) (by omega)]
      dsimp only
      have hfe : folder.filter (fun x => !(x.name == m.name)) =
          folder.filter (fun e =>
            !(isAssoc save e) || decide ((total - limit + 1) ≤ countOlder save folder e)) := by
        apply List.filter_congr
        intro e he
        by_cases hae : isAssoc save e = true
        · by_cases hem : e = m
          · subst hem
            have h0 : countOlder save folder e = 0 := countOlder_min_zero hmin
            have hd : ¬ ((total - limit + 1) ≤ countOlder save folder e) := by
              rw [h0]; omega
            simp [hae, hd]
          · have hnq : e.name ≠ m.name := fun hc => hem (name_inj_of_nodup hnd he hmF hc)
            have hpos := countOlder_pos hmF hmAs (hmin e he hae hem)
            have hd : (total - limit + 1) ≤ countOlder save folder e := by omega
            simp [hae, hnq, hd]
        · have hae' : isAssoc save e = false := by
            revert hae; cases isAssoc save e <;> simp
          have hnm := hnameF e he hae'
          simp [hae', hnm]
      simp only [EvictResult.mk.injEq]
      exact ⟨trivial, hfe, by omega, by omega⟩

/-! ## Collision-loop lemmas -/

theorem findFree_spec (folder : List BEntry) (save ext : String) (fuel : Nat) :
    ∀ n, (∃ i, i < fuel ∧ existsFileNamed folder (mkBackupName save (n + i) ext) = false) →
      ∃ j, findFree folder save ext fuel n = n + j ∧
        (∀ i, i < j → existsFileNamed folder (mkBackupName save (n + i) ext) = true) ∧
        existsFileNamed folder (mkBackupName save (n + j) ext) = false := by
  induction fuel with
  | zero =>
    intro n h
    obtain ⟨i, hi, _⟩ := h
    omega
  | succ f ih =>
    intro n h
    obtain ⟨i, hi, hfree⟩ := h
    by_cases hc : existsFileNamed folder (mkBackupName save n ext) = true
    · have hi0 : i ≠ 0 := by
        intro h0
        subst h0
        rw [Nat.add_zero, hc] at hfree
        exact Bool.noConfusion hfree
      obtain ⟨j, hj1, hj2, hj3⟩ := ih (n + 1) ⟨i - 1, by omega, by
        have harr : n + 1 + (i - 1) = n + i := by omega
        rw [harr]; exact hfree⟩
      refine ⟨j + 1, ?_, ?_, ?_⟩
      · simp only [findFree, if_pos hc]
        rw [hj1]
        omega
      · intro i2 hi2
        by_cases h0 : i2 = 0
        · subst h0
          rw [Nat.add_zero]
          exact hc
        · have := hj2 (i2 - 1) (by omega)
          have harr : n + 1 + (i2 - 1) = n + i2 := by omega
          rwa [harr] at this
      · have harr : n + 1 + j = n + (j + 1) := by omega
        rwa [harr] at hj3
    · have hcf : existsFileNamed folder (mkBackupName save n ext) = false := by
        revert hc; cases existsFileNamed folder (mkBackupName save n ext) <;> simp
      refine ⟨0, ?_, fun i2 hi2 => absurd hi2 (Nat.not_lt_zero i2), ?_⟩
      · simp only [findFree, if_neg hc]
        omega
      · rw [Nat.add_zero]
        exact hcf

theorem free_within_fuel (folder : List BEntry) (save ext : String) (n : Nat) :
    ∃ i, i < countFiles folder + 1 ∧
      existsFileNamed folder (mkBackupName save (n + i) ext) = false := by
  by_contra hcon
  push_neg at hcon
  have hall : ∀ i, i < countFiles folder + 1 →
      existsFileNamed folder (mkBackupName save (n + i) ext) = true := by
    intro i hi
    have := hcon i hi
    revert this
    cases existsFileNamed folder (mkBackupName save (n + i) ext) <;> simp
  have hinj : Function.Injective (fun i => mkBackupName save (n + i) ext) := by
    intro a b hab
    have := mkBackupName_inj save ext hab
    omega
  have hnd : ((List.range (countFiles folder + 1)).map
      (fun i => mkBackupName save (n + i) ext)).Nodup :=
    (List.nodup_range (countFiles folder + 1)).map hinj
  have hsub : (List.range (countFiles folder + 1)).map (fun i => mkBackupName save (n + i) ext) ⊆
      (folder.filter (fun e => e.isFile)).map BEntry.name := by
    intro x hx
    obtain ⟨i, hir, hix⟩ := List.mem_map.mp hx
    have hi : i < countFiles folder + 1 := List.mem_range.mp hir
    have hex := hall i hi
    obtain ⟨e, he, hprop⟩ := List.any_eq_true.mp hex
    rw [Bool.and_eq_true] at hprop
    have he1 : e.isFile = true := hprop.1
    have he2 : e.name = mkBackupName save (n + i) ext := by
      simpa using hprop.2
    refine List.mem_map.mpr ⟨e, List.mem_filter.mpr ⟨he, he1⟩, ?_⟩
    rw [he2, hix]
  have hle := (hnd.subperm hsub).length_le
  rw [List.length_map, List.length_range, List.length_map] at hle
  unfold countFiles at hle
  omega

theorem freeBackupNum_free (folder : List BEntry) (save ext : String) (n : Nat) :
    existsFileNamed folder (mkBackupName save (freeBackupNum folder save ext n) ext) = false := by
  obtain ⟨j, hj1, _, hj3⟩ := findFree_spec folder save ext (countFiles folder + 1) n
    (free_within_fuel folder save ext n)
  unfold freeBackupNum
  rw [hj1]
  exact hj3

/-! ## Startup-scan lemmas -/

theorem scanNums_count (save : String) (folder : List BEntry) :
    ∀ bn tn, (∀ e ∈ folder, isAssoc save e = true → (parseSeqNum e.name).isSome = true) →
      ∃ bn2, folder.foldl (scanStep save) (some (bn, tn)) =
        some (bn2, tn + (assocEntries save folder).length) := by
  induction folder with
  | nil =>
    intro bn tn _
    exact ⟨bn, by simp [assocEntries]⟩
  | cons e es ih =>
    intro bn tn hp
    by_cases hae : isAssoc save e = true
    · have hps : (parseSeqNum e.name).isSome = true := hp e (by simp) hae
      obtain ⟨k, hk⟩ := Option.isSome_iff_exists.mp hps
      simp only [List.foldl_cons, scanStep, if_pos hae, hk]
      obtain ⟨bn2, hb⟩ :=
        ih (if bn ≤ k then k + 1 else bn) (tn + 1) (fun x hx hax => hp x (by simp [hx]) hax)
      refine ⟨bn2, ?_⟩
      rw [hb]
      have hlen : (assocEntries save (e :: es)).length = (assocEntries save es).length + 1 := by
        simp [assocEntries, List.filter_cons, hae]
      rw [hlen]
      have harr : tn + 1 + (assocEntries save es).length =
          tn + ((assocEntries save es).length + 1) := by omega
      rw [harr]
    · have hae' : isAssoc save e = false := by
        revert hae; cases isAssoc save e <;> simp
      simp only [List.foldl_cons, scanStep, hae']
      obtain ⟨bn2, hb⟩ := ih bn tn (fun x hx hax => hp x (by simp [hx]) hax)
      refine ⟨bn2, ?_⟩
      have hlen : (assocEntries save (e :: es)).length = (assocEntries save es).length := by
        simp [assocEntries, List.filter_cons, hae']
      rw [hlen]
      simpa using hb

theorem locateSave_eq_of_scan (folderName : String) (p : Playstyle) (ps : List Playstyle)
    (v : String × String × Nat)
    (h : scanPlaystyles folderName (p.1, "", 0) (p :: ps) = some v) :
    locateSave folderName (some (p :: ps)) =
      if v.2.1 = "" then .noSaves else .found v.1 v.2.1 v.2.2 := by
  obtain ⟨a, b, c⟩ := v
  simp [locateSave, h]

theorem locate_found_of_ne (folderName : String) (p : Playstyle) (ps : List Playstyle)
    (hlist : ∀ q ∈ p :: ps, q.2.isSome = true)
    (hne : eligPairs folderName (p :: ps) ≠ [])
    (hpos : ∀ e ∈ eligPairs folderName (p :: ps), 1 ≤ e.2.2)
    (hnm : ∀ e ∈ eligPairs folderName (p :: ps), e.2.1 ≠ "") :
    ∃ pre x post, eligPairs folderName (p :: ps) = pre ++ x :: post ∧
      (∀ e ∈ pre, e.2.2 < x.2.2) ∧ (∀ e ∈ post, e.2.2 ≤ x.2.2) ∧
      locateSave folderName (some (p :: ps)) = .found x.1 x.2.1 x.2.2 := by
  obtain ⟨pre, x, post, heq, hpre, hpost⟩ := exists_first_max _ hne
  have hx : x ∈ eligPairs folderName (p :: ps) := by rw [heq]; simp
  have hsel : selGo (p.1, "", 0) (eligPairs folderName (p :: ps)) = x := by
    rw [heq]
    exact selGo_first_max pre post x (p.1, "", 0) hpre hpost (hpos x hx)
  have hv := scanPlaystyles_eq folderName (p :: ps) (p.1, "", 0) hlist
  rw [hsel] at hv
  have hloc := locateSave_eq_of_scan folderName p ps x hv
  rw [if_neg (hnm x hx)] at hloc
  exact ⟨pre, x, post, heq, hpre, hpost, hloc⟩

/-- C3: for a save root whose playstyle directories are all listable, with at
    least one eligible child, positive modification times and nonempty child
    names, the save-location phase returns exactly the first eligible
    (playstyle, save, mtime) triple attaining the maximum last-modified
    timestamp: every earlier-scanned candidate is strictly older and no later
    candidate is strictly newer — so with distinct timestamps it returns the
    unique maximum, and when timestamps are equal the first-encountered child
    in the stable listing order wins; children named exactly the
    backup-folder name are skipped (they never appear in `eligPairs`). -/
theorem c3_locator_first_max (folderName : String) (p : Playstyle) (ps : List Playstyle)
    (hlist : ∀ q ∈ p :: ps, q.2.isSome = true)
    (hne : eligPairs folderName (p :: ps) ≠ [])
    (hpos : ∀ e ∈ eligPairs folderName (p :: ps), 1 ≤ e.2.2)
    (hnm : ∀ e ∈ eligPairs folderName (p :: ps), e.2.1 ≠ "") :
    ∃ pre x post, eligPairs folderName (p :: ps) = pre ++ x :: post ∧
      (∀ e ∈ pre, e.2.2 < x.2.2) ∧ (∀ e ∈ post, e.2.2 ≤ x.2.2) ∧
      locateSave folderName (some (p :: ps)) = .found x.1 x.2.1 x.2.2 :=
  locate_found_of_ne folderName p ps hlist hne hpos hnm

/-- Witness for C3 at a concrete two-playstyle root: the save `s1` of
    playstyle `A` carries the maximum timestamp and is selected; the entry
    named exactly like the backup folder is ignored. -/
theorem c3_witness :
    (∀ q ∈ [(("A" : String), some [(⟨"s1", 5⟩ : DirChild)]),
            ("B", some [⟨"save_backups", 9⟩, ⟨"s2", 3⟩])], q.2.isSome = true) ∧
    (∃ pre x post,
      eligPairs "save_backups"
        [("A", some [⟨"s1", 5⟩]), ("B", some [⟨"save_backups", 9⟩, ⟨"s2", 3⟩])] =
        pre ++ x :: post ∧
      (∀ e ∈ pre, e.2.2 < x.2.2) ∧ (∀ e ∈ post, e.2.2 ≤ x.2.2) ∧
      locateSave "save_backups"
        (some [("A", some [⟨"s1", 5⟩]), ("B", some [⟨"save_backups", 9⟩, ⟨"s2", 3⟩])]) =
        .found x.1 x.2.1 x.2.2) :=
  ⟨by decide,
   c3_locator_first_max "save_backups" ("A", some [⟨"s1", 5⟩])
     [("B", some [⟨"save_backups", 9⟩, ⟨"s2", 3⟩])]
     (by decide) (by decide) (by decide) (by decide)⟩

/-- C4 counterexample: a root holding a single playstyle whose own listing is
    permission-denied.  Line 95 of the source is outside every `try`, so the
    script dies with an uncaught PermissionError (`crashed`) instead of the
    claimed AccessDenied exit. -/
theorem c4_cex :
    locateSave "save_backups" (some [("A", none)]) = .crashed ∧
    locateSave "save_backups" (some [("A", none)]) ≠ .accessDenied := by
  exact ⟨by decide, by decide⟩

/-- C4 amended: AccessDenied is produced exactly for a permission failure
    listing the save root itself; a permission failure listing an individual
    playstyle is an unhandled exception (crash), not AccessDenied.  With all
    playstyles listable (and positive timestamps, nonempty names),
    NoSavesFound occurs exactly when the root is empty or no eligible child
    exists, and otherwise the phase succeeds with a found save. -/
theorem c4_amended (folderName : String) (root : Option (List Playstyle))
    (hpos : ∀ pls, root = some pls → ∀ e ∈ eligPairs folderName pls, 1 ≤ e.2.2)
    (hnm : ∀ pls, root = some pls → ∀ e ∈ eligPairs folderName pls, e.2.1 ≠ "") :
    (root = none → locateSave folderName root = .accessDenied) ∧
    (∀ pls, root = some pls →
      ((pls = [] ∧ locateSave folderName root = .noSaves) ∨
       ((∃ q ∈ pls, q.2 = none) ∧ locateSave folderName root = .crashed) ∨
       ((∀ q ∈ pls, q.2.isSome = true) ∧ eligPairs folderName pls = [] ∧
         locateSave folderName root = .noSaves) ∨
       ((∀ q ∈ pls, q.2.isSome = true) ∧ eligPairs folderName pls ≠ [] ∧
         ∃ a b t, locateSave folderName root = .found a b t))) := by
  constructor
  · intro h
    subst h
    rfl
  · intro pls hroot
    subst hroot
    cases pls with
    | nil => exact Or.inl ⟨rfl, rfl⟩
    | cons p ps =>
      by_cases hun : ∃ q ∈ p :: ps, q.2 = none
      · refine Or.inr (Or.inl ⟨hun, ?_⟩)
        have hsc := (scanPlaystyles_none folderName (p :: ps) (p.1, "", 0)).mpr hun
        simp [locateSave, hsc]
      · have hlist : ∀ q ∈ p :: ps, q.2.isSome = true := by
          intro q hq
          push_neg at hun
          have hne2 := hun q hq
          cases hqq : q.2 with
          | none => exact absurd hqq hne2
          | some l => rfl
        by_cases helig : eligPairs folderName (p :: ps) = []
        · refine Or.inr (Or.inr (Or.inl ⟨hlist, helig, ?_⟩))
          have hv := scanPlaystyles_eq folderName (p :: ps) (p.1, "", 0) hlist
          rw [helig] at hv
          have hloc := locateSave_eq_of_scan folderName p ps (p.1, "", 0) hv
          simpa using hloc
        · refine Or.inr (Or.inr (Or.inr ⟨hlist, helig, ?_⟩))
          obtain ⟨_, x, _, _, _, _, hloc⟩ :=
            locate_found_of_ne folderName p ps hlist helig
              (hpos (p :: ps) rfl) (hnm (p :: ps) rfl)
          exact ⟨x.1, x.2.1, x.2.2, hloc⟩

/-- Witness for C4 at a concrete root with one listable playstyle holding one
    eligible save: the phase succeeds. -/
theorem c4_witness :
    (some [(("A" : String), some [(⟨"s1", 5⟩ : DirChild)])] =
      (none : Option (List Playstyle)) →
        locateSave "save_backups" (some [("A", some [⟨"s1", 5⟩])]) = .accessDenied) ∧
    (∀ pls, some [(("A" : String), some [(⟨"s1", 5⟩ : DirChild)])] = some pls →
      ((pls = [] ∧ locateSave "save_backups" (some [("A", some [⟨"s1", 5⟩])]) = .noSaves) ∨
       ((∃ q ∈ pls, q.2 = none) ∧
         locateSave "save_backups" (some [("A", some [⟨"s1", 5⟩])]) = .crashed) ∨
       ((∀ q ∈ pls, q.2.isSome = true) ∧ eligPairs "save_backups" pls = [] ∧
         locateSave "save_backups" (some [("A", some [⟨"s1", 5⟩])]) = .noSaves) ∨
       ((∀ q ∈ pls, q.2.isSome = true) ∧ eligPairs "save_backups" pls ≠ [] ∧
         ∃ a b t, locateSave "save_backups" (some [("A", some [⟨"s1", 5⟩])]) =
           .found a b t))) :=
  c4_amended "save_backups" (some [("A", some [⟨"s1", 5⟩])]) (by decide) (by decide)

/-- C5 counterexample: for save `alpha` the entry `myalpha_bak0.zip` does not
    begin with `alpha_`, yet the substring test associates it, the numbering
    scan counts it, and the eviction scan selects it — refuting the claimed
    prefix-separated characterisation of association. -/
theorem c5_cex :
    isAssoc "alpha" (fileE "myalpha_bak0.zip" 7) = true ∧
    charsStart ("alpha" ++ "_").data (fileE "myalpha_bak0.zip" 7).name.data = false ∧
    scanNums "alpha" [fileE "myalpha_bak0.zip" 7] = some (1, 1) ∧
    selectEarliest "alpha" [fileE "myalpha_bak0.zip" 7] = ("myalpha_bak0.zip", 7) := by
  exact ⟨by decide, by decide, by decide, by decide⟩

/-- C5 amended: in both the numbering/count scan and the eviction candidate
    scan, an entry belongs to the save iff the save's name occurs anywhere as
    a substring of the filename (Python `in`).  Beginning with
    save-name-plus-separator is sufficient for association but not necessary.
    Under that containment test, the startup scan's count is exactly the
    number of containing entries, and the eviction scan only ever selects a
    containing entry. -/
theorem c5_amended (save : String) (folder : List BEntry)
    (hp : ∀ e ∈ folder, isAssoc save e = true → (parseSeqNum e.name).isSome = true) :
    (∃ bn, scanNums save folder = some (bn, (assocEntries save folder).length)) ∧
    ((∃ e ∈ folder, isAssoc save e = true) →
      ∃ m ∈ folder, isAssoc save m = true ∧ selectEarliest save folder = (m.name, m.mtime)) ∧
    (∀ (s : String) (e : BEntry),
      charsStart (s ++ "_").data e.name.data = true → isAssoc s e = true) := by
  refine ⟨?_, selectEarliest_assoc save folder, ?_⟩
  · obtain ⟨bn2, hb⟩ := scanNums_count save folder 0 0 hp
    refine ⟨bn2, ?_⟩
    unfold scanNums
    simpa using hb
  · intro s e h
    unfold isAssoc strIn
    rw [String.data_append] at h
    exact charsContain_of_start _ _ (charsStart_of_append _ _ _ h)

/-- Witness for C5 at a one-entry folder whose entry parses. -/
theorem c5_witness :
    (∀ e ∈ [fileE "alpha_bak0.zip" 1], isAssoc "alpha" e = true →
      (parseSeqNum e.name).isSome = true) ∧
    ((∃ bn, scanNums "alpha" [fileE "alpha_bak0.zip" 1] =
        some (bn, (assocEntries "alpha" [fileE "alpha_bak0.zip" 1]).length)) ∧
     ((∃ e ∈ [fileE "alpha_bak0.zip" 1], isAssoc "alpha" e = true) →
       ∃ m ∈ [fileE "alpha_bak0.zip" 1], isAssoc "alpha" m = true ∧
         selectEarliest "alpha" [fileE "alpha_bak0.zip" 1] = (m.name, m.mtime)) ∧
     (∀ (s : String) (e : BEntry),
       charsStart (s ++ "_").data e.name.data = true → isAssoc s e = true)) :=
  ⟨by decide, c5_amended "alpha" [fileE "alpha_bak0.zip" 1] (by decide)⟩

/-- C1 counterexample: limit 3, five associated archive entries with distinct
    timestamps 10..50.  The `while total_num >= LIMIT` loop runs at counts
    5, 4 and 3, so it deletes the three oldest entries and leaves only the
    two newest — not, as claimed, two deletions leaving three: the
    third-newest entry (timestamp 30) is gone. -/
theorem c1_cex :
    evictBackups 3 "alpha"
      [fileE "alpha_bak0.zip" 10, fileE "alpha_bak1.zip" 20, fileE "alpha_bak2.zip" 30,
       fileE "alpha_bak3.zip" 40, fileE "alpha_bak4.zip" 50] 5 =
      ⟨false, [fileE "alpha_bak3.zip" 40, fileE "alpha_bak4.zip" 50], 2, 3⟩ ∧
    fileE "alpha_bak2.zip" 30 ∉
      (evictBackups 3 "alpha"
        [fileE "alpha_bak0.zip" 10, fileE "alpha_bak1.zip" 20, fileE "alpha_bak2.zip" 30,
         fileE "alpha_bak3.zip" 40, fileE "alpha_bak4.zip" 50] 5).folder := by
  exact ⟨by decide, by decide⟩

/-- C1 amended: with limit 3 and exactly five associated entries (deletable
    archive files with distinct positive timestamps, folder names unique),
    the eviction phase deletes exactly the three oldest associated entries
    (those with fewer than three older associated entries) and leaves the two
    newest and every non-associated entry untouched, in three iterations,
    regardless of their order in the scan. -/
theorem c1_amended (save : String) (folder : List BEntry)
    (hA : ∀ e ∈ folder, isAssoc save e = true → e.isFile = true ∧ e.locked = false ∧ 1 ≤ e.mtime)
    (hnd : (folder.map BEntry.name).Nodup)
    (hC : (assocEntries save folder).Pairwise (fun a b => a.mtime ≠ b.mtime))
    (hlen : (assocEntries save folder).length = 5) :
    evictBackups 3 save folder 5 =
      ⟨false,
       folder.filter (fun e => !(isAssoc save e) || decide (3 ≤ countOlder save folder e)),
       2, 3⟩ := by
  have h := evictLoop_clean 3 save (by omega) 6 5 folder (by omega) hA hnd hC hlen.symm (by omega)
  unfold evictBackups
  rw [if_neg (by decide : ¬ (3 : Nat) = 0)]
  simpa using h

/-- Witness for C1 at the concrete five-entry folder of the counterexample. -/
theorem c1_witness :
    ((assocEntries "alpha"
        [fileE "alpha_bak0.zip" 10, fileE "alpha_bak1.zip" 20, fileE "alpha_bak2.zip" 30,
         fileE "alpha_bak3.zip" 40, fileE "alpha_bak4.zip" 50]).length = 5) ∧
    evictBackups 3 "alpha"
      [fileE "alpha_bak0.zip" 10, fileE "alpha_bak1.zip" 20, fileE "alpha_bak2.zip" 30,
       fileE "alpha_bak3.zip" 40, fileE "alpha_bak4.zip" 50] 5 =
      ⟨false,
       [fileE "alpha_bak0.zip" 10, fileE "alpha_bak1.zip" 20, fileE "alpha_bak2.zip" 30,
        fileE "alpha_bak3.zip" 40, fileE "alpha_bak4.zip" 50].filter
         (fun e => !(isAssoc "alpha" e) ||
           decide (3 ≤ countOlder "alpha"
             [fileE "alpha_bak0.zip" 10, fileE "alpha_bak1.zip" 20, fileE "alpha_bak2.zip" 30,
              fileE "alpha_bak3.zip" 40, fileE "alpha_bak4.zip" 50] e)),
       2, 3⟩ :=
  ⟨by decide,
   c1_amended "alpha"
     [fileE "alpha_bak0.zip" 10, fileE "alpha_bak1.zip" 20, fileE "alpha_bak2.zip" 30,
      fileE "alpha_bak3.zip" 40, fileE "alpha_bak4.zip" 50]
     (by decide) (by decide) (by decide) (by decide)⟩

/-- C2 counterexample: with the plain-copy configuration (empty extension),
    a pre-existing plain directory copy named `alpha_bak0` occupies the naive
    candidate name, but `os.path.isfile` does not see it, so the collision
    loop returns sequence number 0 and the chosen filename names an existing
    entry of the folder. -/
theorem c2_cex :
    freeBackupNum [dirE "alpha_bak0" 5] "alpha" "" 0 = 0 ∧
    mkBackupName "alpha" 0 "" = "alpha_bak0" ∧
    ([dirE "alpha_bak0" 5].any
      (fun e => e.name == mkBackupName "alpha" (freeBackupNum [dirE "alpha_bak0" 5] "alpha" "" 0) "")) =
      true := by
  exact ⟨by decide, by decide, by decide⟩

/-- C2 amended: for every folder state, start number and extension, the
    filename the collision loop settles on never names an existing *regular
    file* entry of the folder at call time (the loop increments past every
    colliding file).  An existing plain directory copy bearing the candidate
    name is not detected, so the returned name can coincide with a directory
    entry (see the counterexample), and the later exclusive create fails. -/
theorem c2_amended (folder : List BEntry) (save ext : String) (n : Nat) :
    existsFileNamed folder (mkBackupName save (freeBackupNum folder save ext n) ext) = false :=
  freeBackupNum_free folder save ext n

/-- C6 counterexample: the startup scan of a folder holding `alpha_bak5.zip`
    yields in-memory state (6, 1).  After one backup iteration the state is
    (7, 2).  The user then empties the folder.  The next iteration would use
    sequence number 7 and count 2 straight from memory, while re-running the
    scan on the now-empty folder yields (0, 0): the values used are cached,
    not re-scanned. -/
theorem c6_cex :
    scanNums "alpha" [fileE "alpha_bak5.zip" 1] = some (6, 1) ∧
    loopIter 0 true "alpha" [fileE "alpha_bak5.zip" 1] ⟨6, 1, 0⟩ ⟨2, 2⟩ =
      some ([fileE "alpha_bak5.zip" 1, ⟨"alpha_bak6.zip", 2, true, true, false⟩],
            ⟨7, 2, 2⟩) ∧
    freeBackupNum [] "alpha" ZIP_EXT 7 = 7 ∧
    scanNums "alpha" ([] : List BEntry) = some (0, 0) ∧
    (7 : Nat) ≠ 0 := by
  exact ⟨by decide, by decide, by decide, by decide, by decide⟩

/-- C6 amended: the folder is scanned for sequence numbers and counts once,
    before the loop; before each backup the only folder access is the
    file-existence collision check, which advances the cached in-memory
    number past consecutively occupied file names.  Whenever an iteration
    succeeds, the number used is the in-memory `backup_num` plus the count of
    consecutive colliding file names, and the stored count is the in-memory
    count as adjusted by eviction, plus one — neither is recomputed by a
    fresh scan. -/
theorem c6_amended (limit : Nat) (method : Bool) (save : String) (folder : List BEntry)
    (st : LoopState) (env : IterEnv) (f2 : List BEntry) (st2 : LoopState)
    (h : loopIter limit method save folder st env = some (f2, st2)) :
    ∃ j, st2.backup_num = st.backup_num + j + 1 ∧
      st2.total_num = (evictBackups limit save folder st.total_num).total + 1 ∧
      (∀ i, i < j → existsFileNamed (evictBackups limit save folder st.total_num).folder
        (mkBackupName save (st.backup_num + i) (if method then ZIP_EXT else "")) = true) ∧
      existsFileNamed (evictBackups limit save folder st.total_num).folder
        (mkBackupName save (st.backup_num + j) (if method then ZIP_EXT else "")) = false := by
  simp only [loopIter] at h
  set ext2 : String := if method then ZIP_EXT else "" with hext
  split at h
  · exact Option.noConfusion h
  · split at h
    · exact Option.noConfusion h
    · have h' := Option.some.inj h
      injection h' with hf hs
      subst hf
      subst hs
      obtain ⟨j, hj1, hj2, hj3⟩ :=
        findFree_spec (evictBackups limit save folder st.total_num).folder save ext2
          (countFiles (evictBackups limit save folder st.total_num).folder + 1)
          st.backup_num
          (free_within_fuel _ _ _ _)
      refine ⟨j, ?_, rfl, hj2, hj3⟩
      dsimp only
      unfold freeBackupNum
      rw [hj1]

/-- Witness for C6: a successful iteration on an empty folder uses the
    in-memory number 4 unchanged (no colliding file names). -/
theorem c6_witness :
    loopIter 0 true "alpha" [] ⟨4, 0, 0⟩ ⟨9, 9⟩ =
      some ([⟨"alpha_bak4.zip", 9, true, true, false⟩], ⟨5, 1, 9⟩) ∧
    (∃ j, (⟨5, 1, 9⟩ : LoopState).backup_num = (⟨4, 0, 0⟩ : LoopState).backup_num + j + 1 ∧
      (⟨5, 1, 9⟩ : LoopState).total_num =
        (evictBackups 0 "alpha" [] (⟨4, 0, 0⟩ : LoopState).total_num).total + 1 ∧
      (∀ i, i < j → existsFileNamed (evictBackups 0 "alpha" [] (⟨4, 0, 0⟩ : LoopState).total_num).folder
        (mkBackupName "alpha" ((⟨4, 0, 0⟩ : LoopState).backup_num + i)
          (if true then ZIP_EXT else "")) = true) ∧
      existsFileNamed (evictBackups 0 "alpha" [] (⟨4, 0, 0⟩ : LoopState).total_num).folder
        (mkBackupName "alpha" ((⟨4, 0, 0⟩ : LoopState).backup_num + j)
          (if true then ZIP_EXT else "")) = false) :=
  ⟨by decide,
   c6_amended 0 true "alpha" [] ⟨4, 0, 0⟩ ⟨9, 9⟩
     [⟨"alpha_bak4.zip", 9, true, true, false⟩] ⟨5, 1, 9⟩ (by decide)⟩

/-- C7 counterexample: a successful archiving step whose artifact receives
    modification time 100 while the save directory re-reads as 50.  Line 223
    stores the save directory's mtime, so `last_mod` ends up 50, not the
    artifact's 100 — refuting the claimed equality with the artifact's
    timestamp. -/
theorem c7_cex :
    loopIter 0 true "alpha" [] ⟨0, 0, 99⟩ ⟨100, 50⟩ =
      some ([⟨"alpha_bak0.zip", 100, true, true, false⟩], ⟨1, 1, 50⟩) ∧
    (⟨1, 1, 50⟩ : LoopState).last_mod ≠ (⟨100, 50⟩ : IterEnv).artifactMtime := by
  exact ⟨by decide, by decide⟩

/-- C7 amended: after every successful archiving step, `last_mod` equals the
    save directory's re-read modification time (line 223) — not the
    artifact's — while the count becomes the post-eviction in-memory count
    plus one and the sequence number becomes the collision-adjusted chosen
    number plus one; the new artifact itself is appended to the folder with
    its own mtime. -/
theorem c7_amended (limit : Nat) (method : Bool) (save : String) (folder : List BEntry)
    (st : LoopState) (env : IterEnv) (f2 : List BEntry) (st2 : LoopState)
    (h : loopIter limit method save folder st env = some (f2, st2)) :
    st2.last_mod = env.saveMtime ∧
    st2.total_num = (evictBackups limit save folder st.total_num).total + 1 ∧
    st2.backup_num =
      freeBackupNum (evictBackups limit save folder st.total_num).folder save
        (if method then ZIP_EXT else "") st.backup_num + 1 ∧
    f2 = (evictBackups limit save folder st.total_num).folder ++
      [⟨mkBackupName save
          (freeBackupNum (evictBackups limit save folder st.total_num).folder save
            (if method then ZIP_EXT else "") st.backup_num)
          (if method then ZIP_EXT else ""),
        env.artifactMtime, method, true, false⟩] := by
  simp only [loopIter] at h
  set ext2 : String := if method then ZIP_EXT else "" with hext
  split at h
  · exact Option.noConfusion h
  · split at h
    · exact Option.noConfusion h
    · have h' := Option.some.inj h
      injection h' with hf hs
      subst hf
      subst hs
      exact ⟨rfl, rfl, rfl, rfl⟩

/-- Witness for C7 at the counterexample's concrete iteration. -/
theorem c7_witness :
    loopIter 0 true "alpha" [] ⟨0, 0, 99⟩ ⟨100, 50⟩ =
      some ([⟨"alpha_bak0.zip", 100, true, true, false⟩], ⟨1, 1, 50⟩) ∧
    ((⟨1, 1, 50⟩ : LoopState).last_mod = (⟨100, 50⟩ : IterEnv).saveMtime ∧
     (⟨1, 1, 50⟩ : LoopState).total_num =
       (evictBackups 0 "alpha" [] (⟨0, 0, 99⟩ : LoopState).total_num).total + 1 ∧
     (⟨1, 1, 50⟩ : LoopState).backup_num =
       freeBackupNum (evictBackups 0 "alpha" [] (⟨0, 0, 99⟩ : LoopState).total_num).folder
         "alpha" (if true then ZIP_EXT else "") (⟨0, 0, 99⟩ : LoopState).backup_num + 1 ∧
     [⟨"alpha_bak0.zip", 100, true, true, false⟩] =
       (evictBackups 0 "alpha" [] (⟨0, 0, 99⟩ : LoopState).total_num).folder ++
       [⟨mkBackupName "alpha"
           (freeBackupNum (evictBackups 0 "alpha" [] (⟨0, 0, 99⟩ : LoopState).total_num).folder
             "alpha" (if true then ZIP_EXT else "") (⟨0, 0, 99⟩ : LoopState).backup_num)
           (if true then ZIP_EXT else ""),
         (⟨100, 50⟩ : IterEnv).artifactMtime, true, true, false⟩]) :=
  ⟨by decide, c7_amended 0 true "alpha" [] ⟨0, 0, 99⟩ ⟨100, 50⟩
     [⟨"alpha_bak0.zip", 100, true, true, false⟩] ⟨1, 1, 50⟩ (by decide)⟩

/-- C8: the claim matches the spec's intent, but the code is wrong.  An
    archive-file entry is indeed removed by single-file removal (third
    conjunct), but a plain directory-copy entry is handed to `os.rmdir`,
    which removes only empty directories: on a non-empty copied tree it
    raises an OSError that no handler catches (only PermissionError is
    caught), so the eviction aborts the whole run instead of recursively
    removing the tree. -/
theorem c8_rmdir_crash :
    deleteEntry [dirE "alpha_bak0" 5] "alpha_bak0" = .crash ∧
    evictBackups 1 "alpha" [dirE "alpha_bak0" 5] 1 =
      ⟨true, [dirE "alpha_bak0" 5], 1, 1⟩ ∧
    deleteEntry [fileE "alpha_bak0.zip" 5] "alpha_bak0.zip" = .deleted [] := by
  exact ⟨by decide, by decide, by decide⟩

/-- C9 counterexample: limit 1 and one associated entry whose deletion is
    permission-denied.  `total_num -= 1` sits outside the `try` (line 171),
    so the count drops to 0 — strictly below the limit — although the
    deletion never succeeded, refuting both the "decremented only on success"
    clause and the "count stays at or above the limit" clause. -/
theorem c9_cex :
    evictBackups 1 "alpha" [lockedE "alpha_bak0.zip" 5] 1 =
      ⟨false, [lockedE "alpha_bak0.zip" 5], 0, 1⟩ ∧
    (evictBackups 1 "alpha" [lockedE "alpha_bak0.zip" 5] 1).total < 1 := by
  exact ⟨by decide, by decide⟩

/-- C9 amended: a PermissionDenied deletion never aborts the eviction loop or
    the run — each failure is reported and the loop continues (rescanning the
    unchanged folder, hence reattempting the same minimum candidate) — but
    the in-memory count is decremented unconditionally on every attempt, so
    under sustained denial the loop performs exactly count - limit + 1
    attempts, deletes nothing, and exits with the in-memory count at
    limit - 1, below the limit. -/
theorem c9_amended (limit : Nat) (save : String) (folder : List BEntry) (total : Nat)
    (hl : 1 ≤ limit) (hg : limit ≤ total)
    (hlock : ∀ e ∈ folder, isAssoc save e = true → e.locked = true)
    (hex : ∃ e ∈ folder, isAssoc save e = true) :
    evictBackups limit save folder total = ⟨false, folder, limit - 1, total - limit + 1⟩ := by
  unfold evictBackups
  rw [if_neg (by omega : ¬ limit = 0)]
  exact evictLoop_locked limit save hl (total + 1) total folder (by omega) hlock hex hg

/-- Witness for C9: two locked entries over limit 1 — two failed attempts,
    folder unchanged, count ends at 0. -/
theorem c9_witness :
    ((1 : Nat) ≤ 1 ∧ (1 : Nat) ≤ 2) ∧
    evictBackups 1 "alpha" [lockedE "alpha_bak0.zip" 5, lockedE "alpha_bak1.zip" 9] 2 =
      ⟨false, [lockedE "alpha_bak0.zip" 5, lockedE "alpha_bak1.zip" 9], 0, 2⟩ :=
  ⟨⟨by decide, by decide⟩,
   c9_amended 1 "alpha" [lockedE "alpha_bak0.zip" 5, lockedE "alpha_bak1.zip" 9] 2
     (by decide) (by decide) (by decide) (by decide)⟩

/-- C10: the eviction loop always terminates within the backup cycle.  For a
    limit of at least 1, the fuel-indexed loop is independent of any
    sufficient fuel (the loop exits by its own condition, never by fuel), the
    number of scan-and-delete iterations is at most count - limit + 1, and
    when no uncaught exception occurs the in-memory count ends at limit - 1
    whenever it started at or above the limit — precisely because the count
    is decremented on every iteration, PermissionError or not, so no infinite
    retry loop is possible. -/
theorem c10_eviction_terminates (limit : Nat) (save : String) (folder : List BEntry)
    (total fuel : Nat) (hl : 1 ≤ limit) (hf : total < fuel) :
    evictLoop limit save fuel folder total = evictBackups limit save folder total ∧
    (evictBackups limit save folder total).iters ≤ total - limit + 1 ∧
    ((evictBackups limit save folder total).crashed = false →
      (evictBackups limit save folder total).total =
        if limit ≤ total then limit - 1 else total) := by
  have hne : ¬ limit = 0 := by omega
  unfold evictBackups
  rw [if_neg hne]
  exact ⟨evictLoop_congr limit save hl fuel (total + 1) folder total hf (by omega),
         evictLoop_bound limit save hl (total + 1) folder total,
         evictLoop_final_total limit save hl (total + 1) folder total (by omega)⟩

/-- Witness for C10: limit 1, one (locked) entry, generous fuel 9. -/
theorem c10_witness :
    ((1 : Nat) ≤ 1 ∧ (1 : Nat) < 9) ∧
    (evictLoop 1 "alpha" 9 [lockedE "alpha_bak0.zip" 5] 1 =
        evictBackups 1 "alpha" [lockedE "alpha_bak0.zip" 5] 1 ∧
      (evictBackups 1 "alpha" [lockedE "alpha_bak0.zip" 5] 1).iters ≤ 1 - 1 + 1 ∧
      ((evictBackups 1 "alpha" [lockedE "alpha_bak0.zip" 5] 1).crashed = false →
        (evictBackups 1 "alpha" [lockedE "alpha_bak0.zip" 5] 1).total =
          if 1 ≤ 1 then 1 - 1 else 1)) :=
  ⟨⟨by decide, by decide⟩,
   c10_eviction_terminates 1 "alpha" [lockedE "alpha_bak0.zip" 5] 1 9 (by decide) (by decide)⟩
